import Mathlib

/-!
Shallow embedding of the surface element-graph core of the blocksuite
repository, together with proofs settling the frozen claims about it.

The embedding covers:
* the string-keyed association maps backing the derived indices
  (JavaScript `Map` objects, keyed by element id);
* the group/tree index maintenance of `SurfaceBlockModel`
  (`_syncGroupChildrenIndex`, `_removeGroupFromChildrenIndex`, `getGroup`,
  `updateElement`, `deleteElement`) from
  `packages/framework/std/src/gfx/model/surface/surface-model.ts`;
* the tree utility algorithms (`getTopElements`, `traverse`,
  `descendantElementsImpl`, `hasDescendantElementImpl`) from
  `packages/framework/std/src/utils/tree.ts`;
* the connector endpoint index (`getConnectors`,
  `_removeConnectorFromIndex`) of the affine surface block model;
* the ungroup index-key fallback chain (`buildUngroupIndexes`) from
  `packages/affine/gfx/group/src/command/group-api.ts`;
* the element model stash/pop overlay (modelled from the spec, the
  implementation file is not part of the sources at hand).

Elements are identified by their `id : String`; object identity in the
TypeScript source corresponds to id equality in the arena-of-nodes
embedding.  Potentially diverging `while` loops are embedded with an
explicit fuel argument returning `none` when the fuel runs out, so that
non-termination of the source loop is expressible as "no fuel suffices".
-/

namespace BlockSuite

/-! ## Association maps (JavaScript `Map` keyed by element id) -/

/-- A JavaScript `Map` with string keys, embedded as an association list.
`get` returns the first binding, `set` overwrites in place, `del` removes
every binding of the key. -/
def StrMap (α : Type) : Type := List (String × α)

namespace StrMap

def empty {α : Type} : StrMap α := []

def get {α : Type} : StrMap α → String → Option α
  | [], _ => none
  | (k, v) :: rest, key => if k = key then some v else get rest key

def set {α : Type} : StrMap α → String → α → StrMap α
  | [], key, v => [(key, v)]
  | (k, w) :: rest, key, v =>
      if k = key then (k, v) :: rest else (k, w) :: set rest key v

def del {α : Type} : StrMap α → String → StrMap α
  | [], _ => []
  | (k, v) :: rest, key => if k = key then del rest key else (k, v) :: del rest key

def hasKey {α : Type} (m : StrMap α) (key : String) : Bool :=
  (m.get key).isSome

theorem get_set_eq {α : Type} (m : StrMap α) (k : String) (v : α) :
    (m.set k v).get k = some v := by
  induction m with
  | nil => simp [set, get]
  | cons hd tl ih =>
    obtain ⟨k', v'⟩ := hd
    by_cases h : k' = k <;> simp [set, get, h, ih]

theorem get_set_ne {α : Type} (m : StrMap α) (k k' : String) (v : α) (h : k ≠ k') :
    (m.set k v).get k' = m.get k' := by
  induction m with
  | nil => simp [set, get, h]
  | cons hd tl ih =>
    obtain ⟨k₀, v₀⟩ := hd
    by_cases h₀ : k₀ = k
    · subst h₀; simp [set, get, h]
    · simp [set, get, h₀, ih]

theorem get_del_eq {α : Type} (m : StrMap α) (k : String) :
    (m.del k).get k = none := by
  induction m with
  | nil => simp [del, get]
  | cons hd tl ih =>
    obtain ⟨k₀, v₀⟩ := hd
    by_cases h₀ : k₀ = k <;> simp [del, get, h₀, ih]

theorem get_del_ne {α : Type} (m : StrMap α) (k k' : String) (h : k ≠ k') :
    (m.del k).get k' = m.get k' := by
  induction m with
  | nil => simp [del, get]
  | cons hd tl ih =>
    obtain ⟨k₀, v₀⟩ := hd
    by_cases h₀ : k₀ = k
    · subst h₀
      simp [del, get, h, ih]
    · simp [del, get, h₀, ih]

theorem get_set {α : Type} (m : StrMap α) (k k' : String) (v : α) :
    (m.set k v).get k' = if k = k' then some v else m.get k' := by
  by_cases h : k = k'
  · subst h; simp [get_set_eq]
  · simp [h, get_set_ne m k k' v h]

theorem get_del {α : Type} (m : StrMap α) (k k' : String) :
    (m.del k).get k' = if k = k' then none else m.get k' := by
  by_cases h : k = k'
  · subst h; simp [get_del_eq]
  · simp [h, get_del_ne m k k' h]

end StrMap

/-! ## Group/tree index of `SurfaceBlockModel` (surface-model.ts)

State: the reverse lookup `_parentGroupMap : id → groupId` and the
children snapshot `_groupChildIdsMap : groupId → string[]`. -/

structure GroupIndex where
  parentGroupMap : StrMap String
  groupChildIdsMap : StrMap (List String)

/-- The remove-previous-children phase of `_syncGroupChildrenIndex` and the
purge loop of `_removeGroupFromChildrenIndex`: for each id in `prev`,
delete its parent pointer only when it currently equals `groupId`. -/
def removePrevChildren (m : StrMap String) (groupId : String)
    (prev : List String) : StrMap String :=
  prev.foldl
    (fun acc childId =>
      if acc.get childId = some groupId then acc.del childId else acc)
    m

/-- `_removeGroupFromChildrenIndex(groupId)` (surface-model.ts:624-634). -/
def removeGroupFromChildrenIndex (st : GroupIndex) (groupId : String) :
    GroupIndex :=
  let previousChildIds := (st.groupChildIdsMap.get groupId).getD []
  { parentGroupMap := removePrevChildren st.parentGroupMap groupId previousChildIds
    groupChildIdsMap := st.groupChildIdsMap.del groupId }

/-- `_syncGroupChildrenIndex(groupId, nextChildIds, previousChildIds?)`
(surface-model.ts:636-654).  `previousChildIds = none` embeds the omitted
optional argument. -/
def syncGroupChildrenIndex (st : GroupIndex) (groupId : String)
    (nextChildIds : List String) (previousChildIds : Option (List String)) :
    GroupIndex :=
  let prev := previousChildIds.getD ((st.groupChildIdsMap.get groupId).getD [])
  let cleared := removePrevChildren st.parentGroupMap groupId prev
  let updated := nextChildIds.foldl (fun acc childId => acc.set childId groupId) cleared
  { parentGroupMap := updated
    groupChildIdsMap := st.groupChildIdsMap.set groupId nextChildIds }

theorem removePrevChildren_get (m : StrMap String) (g : String)
    (prev : List String) (k : String) :
    (removePrevChildren m g prev).get k =
      if k ∈ prev ∧ m.get k = some g then none else m.get k := by
  induction prev generalizing m with
  | nil => simp [removePrevChildren]
  | cons c rest ih =>
    simp only [removePrevChildren, List.foldl_cons] at *
    by_cases hc : m.get c = some g
    · rw [show (if m.get c = some g then m.del c else m) = m.del c by simp [hc]]
      rw [ih]
      by_cases hkc : c = k
      · subst hkc
        by_cases hk : c ∈ rest <;> simp [hk, hc, StrMap.get_del_eq]
      · have hck : ¬k = c := fun hh => hkc hh.symm
        by_cases hk : k ∈ rest <;>
          simp [hk, hck, StrMap.get_del_ne m c k hkc, List.mem_cons]
    · rw [show (if m.get c = some g then m.del c else m) = m by simp [hc]]
      rw [ih]
      by_cases hkc : c = k
      · subst hkc
        simp [hc]
      · have hck : ¬k = c := fun hh => hkc hh.symm
        simp [List.mem_cons, hck]

theorem setAll_get (m : StrMap String) (g : String) (next : List String)
    (k : String) :
    (next.foldl (fun acc childId => acc.set childId g) m).get k =
      if k ∈ next then some g else m.get k := by
  induction next generalizing m with
  | nil => simp
  | cons c rest ih =>
    simp only [List.foldl_cons]
    rw [ih]
    by_cases hk : k ∈ rest
    · simp [hk, List.mem_cons]
    · by_cases hkc : c = k
      · subst hkc
        simp [hk, StrMap.get_set_eq]
      · have hck : ¬k = c := fun hh => hkc hh.symm
        simp [hk, hck, StrMap.get_set_ne m c k g hkc, List.mem_cons]

/-- The parent map after one `_syncGroupChildrenIndex` call, pointwise. -/
theorem syncGroupChildrenIndex_parent_get (st : GroupIndex) (g : String)
    (next : List String) (prevArg : Option (List String)) (k : String) :
    (syncGroupChildrenIndex st g next prevArg).parentGroupMap.get k =
      if k ∈ next then some g
      else if k ∈ prevArg.getD ((st.groupChildIdsMap.get g).getD []) ∧
          st.parentGroupMap.get k = some g then none
      else st.parentGroupMap.get k := by
  simp only [syncGroupChildrenIndex]
  rw [setAll_get, removePrevChildren_get]

/-- Claim C8: `_syncGroupChildrenIndex` is idempotent — for every group id
`g` and child-id list `next`, calling it twice in a row leaves the
parent-index map and the group-children snapshot map in the same state,
as id-to-value mappings, as calling it once. -/
theorem syncGroupChildrenIndex_idempotent (st : GroupIndex) (g : String)
    (next : List String) (k : String) :
    (syncGroupChildrenIndex (syncGroupChildrenIndex st g next none) g next
        none).parentGroupMap.get k =
      (syncGroupChildrenIndex st g next none).parentGroupMap.get k ∧
    (syncGroupChildrenIndex (syncGroupChildrenIndex st g next none) g next
        none).groupChildIdsMap.get k =
      (syncGroupChildrenIndex st g next none).groupChildIdsMap.get k := by
  have hsnap :
      (syncGroupChildrenIndex st g next none).groupChildIdsMap.get g =
        some next := by
    simp only [syncGroupChildrenIndex]
    exact StrMap.get_set_eq _ _ _
  refine ⟨?_, ?_⟩
  · rw [syncGroupChildrenIndex_parent_get, hsnap]
    by_cases hk : k ∈ next
    · rw [syncGroupChildrenIndex_parent_get]
      simp [hk]
    · simp [hk]
  · simp only [syncGroupChildrenIndex]
    by_cases h : g = k
    · subst h
      simp [StrMap.get_set_eq]
    · simp [StrMap.get_set_ne _ _ _ _ h]

/-- Claim C9: a parent-index entry pointing at a group other than `g` is
untouched both by `_removeGroupFromChildrenIndex(g)` and by the
remove-previous-children phase of `_syncGroupChildrenIndex`
(`removePrevChildren`): a child's parent pointer is deleted only when it
currently equals the group being removed or resynced. -/
theorem removeGroup_preserves_other_parent (st : GroupIndex) (g c : String)
    (prevArg : List String)
    (h : st.parentGroupMap.get c ≠ some g) :
    (removeGroupFromChildrenIndex st g).parentGroupMap.get c =
        st.parentGroupMap.get c ∧
    (removePrevChildren st.parentGroupMap g prevArg).get c =
        st.parentGroupMap.get c := by
  constructor
  · simp only [removeGroupFromChildrenIndex]
    rw [removePrevChildren_get]
    simp [h]
  · rw [removePrevChildren_get]
    simp [h]

/-- Witness for C9 at a concrete state: child `c` is indexed under group
`H`; removing group `G` (whose stale snapshot still lists `c`) leaves the
entry pointing at `H`. -/
theorem removeGroup_preserves_other_parent_witness :
    (removeGroupFromChildrenIndex
        ⟨[("c", "H")], [("G", ["c"])]⟩ "G").parentGroupMap.get "c" =
      some "H" ∧
    (removePrevChildren [("c", "H")] "G" ["c"]).get "c" = some "H" := by
  have h := removeGroup_preserves_other_parent
    ⟨[("c", "H")], [("G", ["c"])]⟩ "G" "c" ["c"] (by decide)
  exact ⟨h.1.trans (by decide), h.2.trans (by decide)⟩

/-! ## Tree utilities (tree.ts)

Elements live in an arena keyed by id.  The `.group` getter of an element
is embedded as a lookup in a parent map `parent : StrMap String`
(`parent.get e = some g` means `e.group` is the element `g`,
`none` means `e.group` is `null`).  The `while (ancestor)` loops of
`getTopElements` (tree.ts:42-48) and `hasDescendantElementImpl`
(tree.ts:142-147) carry no visited set in the source; they are embedded
with a fuel argument counting loop iterations, `none` meaning the loop is
still running when the fuel is exhausted. -/

/-- `[...new Set(elements)]`: deduplication keeping the first occurrence,
in insertion order. -/
def dedupFirstAux (seen : List String) : List String → List String
  | [] => []
  | x :: rest =>
      if x ∈ seen then dedupFirstAux seen rest
      else x :: dedupFirstAux (x :: seen) rest

def dedupFirst (l : List String) : List String := dedupFirstAux [] l

/-- The selected-ancestor `while` loop of `getTopElements`: starting from
an optional ancestor, repeatedly step to `.group` until the ancestor is
`null` (`some false`), is in the selected set (`some true`), or the fuel
runs out (`none`). -/
def hasSelectedAncestorF (parent : StrMap String) (sel : List String) :
    Nat → Option String → Option Bool
  | _, none => some false
  | 0, some a => if a ∈ sel then some true else none
  | n + 1, some a =>
      if a ∈ sel then some true
      else hasSelectedAncestorF parent sel n (parent.get a)

/-- The per-element loop body of `getTopElements`: keep the elements whose
selected-ancestor walk returns `false`. -/
def getTopGo (parent : StrMap String) (sel : List String) (fuel : Nat) :
    List String → Option (List String)
  | [] => some []
  | e :: rest => do
      let b ← hasSelectedAncestorF parent sel fuel (parent.get e)
      let rs ← getTopGo parent sel fuel rest
      pure (if b then rs else e :: rs)

/-- `getTopElements(elements)` (tree.ts:33-56) with an iteration budget of
`fuel` per ancestor walk. -/
def getTopElementsF (fuel : Nat) (parent : StrMap String)
    (elements : List String) : Option (List String) :=
  let uniq := dedupFirst elements
  getTopGo parent uniq fuel uniq

/-- The containment `while` loop of `hasDescendantElementImpl`. -/
def hasDescendantWalkF (parent : StrMap String) (container : String) :
    Nat → Option String → Option Bool
  | _, none => some false
  | 0, some c => if c = container then some true else none
  | n + 1, some c =>
      if c = container then some true
      else hasDescendantWalkF parent container n (parent.get c)

/-- `hasDescendantElementImpl(container, element)` (tree.ts:138-148). -/
def hasDescendantElementImplF (fuel : Nat) (parent : StrMap String)
    (container elem : String) : Option Bool :=
  hasDescendantWalkF parent container fuel (parent.get elem)

/-- A 2-cycle in the group graph (`A.group = B`, `B.group = A`) with one
outside element `E` whose parent chain enters the cycle. -/
def cycParent : StrMap String := [("E", "A"), ("A", "B"), ("B", "A")]

theorem cycParent_sel_walk_none (n : Nat) :
    hasSelectedAncestorF cycParent ["E"] n (some "A") = none ∧
    hasSelectedAncestorF cycParent ["E"] n (some "B") = none := by
  induction n with
  | zero => exact ⟨by decide, by decide⟩
  | succ n ih =>
    constructor
    · show (if ("A" : String) ∈ ["E"] then some true
        else hasSelectedAncestorF cycParent ["E"] n (cycParent.get "A")) = none
      rw [if_neg (by decide), show cycParent.get "A" = some "B" from by decide]
      exact ih.2
    · show (if ("B" : String) ∈ ["E"] then some true
        else hasSelectedAncestorF cycParent ["E"] n (cycParent.get "B")) = none
      rw [if_neg (by decide), show cycParent.get "B" = some "A" from by decide]
      exact ih.1

theorem cycParent_desc_walk_none (n : Nat) :
    hasDescendantWalkF cycParent "C" n (some "A") = none ∧
    hasDescendantWalkF cycParent "C" n (some "B") = none := by
  induction n with
  | zero => exact ⟨by decide, by decide⟩
  | succ n ih =>
    constructor
    · show (if ("A" : String) = "C" then some true
        else hasDescendantWalkF cycParent "C" n (cycParent.get "A")) = none
      rw [if_neg (by decide), show cycParent.get "A" = some "B" from by decide]
      exact ih.2
    · show (if ("B" : String) = "C" then some true
        else hasDescendantWalkF cycParent "C" n (cycParent.get "B")) = none
      rw [if_neg (by decide), show cycParent.get "B" = some "A" from by decide]
      exact ih.1

/-- Counterexample to claim C1: on the cyclic group graph `cycParent` the
ancestor walks of `getTopElements([E])` and of
`hasDescendantElementImpl(C, E)` never finish — no iteration budget makes
them return.  The source loops carry no visited set, so the walk is the
same for every fuel: the loop is infinite. -/
theorem getTopElements_cyclic_never_terminates :
    (¬ ∃ n r, getTopElementsF n cycParent ["E"] = some r) ∧
    (¬ ∃ n b, hasDescendantElementImplF n cycParent "C" "E" = some b) := by
  constructor
  · rintro ⟨n, r, h⟩
    have hwalk := (cycParent_sel_walk_none n).1
    have : getTopElementsF n cycParent ["E"] = none := by
      show getTopGo cycParent (dedupFirst ["E"]) n (dedupFirst ["E"]) = none
      rw [show dedupFirst ["E"] = ["E"] from by decide]
      show (do
        let b ← hasSelectedAncestorF cycParent ["E"] n (cycParent.get "E")
        let rs ← getTopGo cycParent ["E"] n []
        pure (if b then rs else "E" :: rs)) = none
      rw [show cycParent.get "E" = some "A" from by decide, hwalk]
      rfl
    rw [this] at h
    exact Option.noConfusion h
  · rintro ⟨n, b, h⟩
    have hwalk := (cycParent_desc_walk_none n).1
    have : hasDescendantElementImplF n cycParent "C" "E" = none := by
      show hasDescendantWalkF cycParent "C" n (cycParent.get "E") = none
      rw [show cycParent.get "E" = some "A" from by decide]
      exact hwalk
    rw [this] at h
    exact Option.noConfusion h

/-- The parent chain starting at `a` meets the selected set: the intended
meaning of the selected-ancestor walk, defined without fuel (well-defined
as an inductive predicate even on cyclic graphs). -/
inductive ReachesSel (parent : StrMap String) (sel : List String) :
    String → Prop
  | hit (a : String) : a ∈ sel → ReachesSel parent sel a
  | step (a b : String) : a ∉ sel → parent.get a = some b →
      ReachesSel parent sel b → ReachesSel parent sel a

/-- The parent chain starting at `a` meets the container: the intended
meaning of the `hasDescendantElementImpl` walk. -/
inductive ReachesCont (parent : StrMap String) (container : String) :
    String → Prop
  | hit (a : String) : a = container → ReachesCont parent container a
  | step (a b : String) : a ≠ container → parent.get a = some b →
      ReachesCont parent container b → ReachesCont parent container a

theorem hasSelectedAncestorF_eq_true (parent : StrMap String)
    (sel : List String) :
    ∀ n a, hasSelectedAncestorF parent sel n (some a) = some true →
      ReachesSel parent sel a := by
  intro n
  induction n with
  | zero =>
    intro a h
    by_cases hs : a ∈ sel
    · exact .hit a hs
    · simp [hasSelectedAncestorF, hs] at h
  | succ n ih =>
    intro a h
    by_cases hs : a ∈ sel
    · exact .hit a hs
    · simp only [hasSelectedAncestorF, if_neg hs] at h
      cases hp : parent.get a with
      | none => rw [hp] at h; simp [hasSelectedAncestorF] at h
      | some b => exact .step a b hs hp (ih b (by rw [hp] at h; exact h))

theorem hasSelectedAncestorF_eq_false (parent : StrMap String)
    (sel : List String) :
    ∀ n a, hasSelectedAncestorF parent sel n (some a) = some false →
      ¬ ReachesSel parent sel a := by
  intro n
  induction n with
  | zero =>
    intro a h
    by_cases hs : a ∈ sel <;> simp [hasSelectedAncestorF, hs] at h
  | succ n ih =>
    intro a h
    by_cases hs : a ∈ sel
    · simp [hasSelectedAncestorF, hs] at h
    · simp only [hasSelectedAncestorF, if_neg hs] at h
      cases hp : parent.get a with
      | none =>
        intro hre
        cases hre with
        | hit _ hmem => exact hs hmem
        | step _ b hns hpb _ => rw [hp] at hpb; exact Option.noConfusion hpb
      | some b =>
        rw [hp] at h
        have hnb := ih b h
        intro hre
        cases hre with
        | hit _ hmem => exact hs hmem
        | step _ b' hns hpb hb =>
          rw [hp] at hpb
          cases hpb
          exact hnb hb

theorem hasSelectedAncestorF_total (parent : StrMap String)
    (sel : List String) (rk : String → Nat)
    (hrk : ∀ a b, parent.get a = some b → rk b < rk a) :
    ∀ n a, rk a < n →
      ∃ b, hasSelectedAncestorF parent sel n (some a) = some b := by
  intro n
  induction n with
  | zero => intro a h; omega
  | succ n ih =>
    intro a ha
    by_cases hs : a ∈ sel
    · exact ⟨true, by simp [hasSelectedAncestorF, hs]⟩
    · cases hp : parent.get a with
      | none =>
        refine ⟨false, ?_⟩
        simp [hasSelectedAncestorF, hs, hp]
      | some b =>
        have hb : rk b < n := by have := hrk a b hp; omega
        obtain ⟨r, hr⟩ := ih b hb
        exact ⟨r, by simp [hasSelectedAncestorF, hs, hp, hr]⟩

/-- Full specification of the selected-ancestor walk when started at an
optional ancestor, under a rank function witnessing acyclicity. -/
theorem hasSelectedAncestorF_spec (parent : StrMap String)
    (sel : List String) (rk : String → Nat)
    (hrk : ∀ a b, parent.get a = some b → rk b < rk a)
    (n : Nat) (o : Option String) (ho : ∀ a, o = some a → rk a < n) :
    ∃ b, hasSelectedAncestorF parent sel n o = some b ∧
      (b = true ↔ ∃ a, o = some a ∧ ReachesSel parent sel a) := by
  cases o with
  | none =>
    refine ⟨false, by simp [hasSelectedAncestorF], ?_⟩
    simp
  | some a =>
    obtain ⟨b, hb⟩ := hasSelectedAncestorF_total parent sel rk hrk n a
      (ho a rfl)
    refine ⟨b, hb, ?_⟩
    cases b with
    | true =>
      simp only [true_iff]
      exact ⟨a, rfl, hasSelectedAncestorF_eq_true parent sel n a hb⟩
    | false =>
      have hnot := hasSelectedAncestorF_eq_false parent sel n a hb
      constructor
      · intro h; exact Bool.noConfusion h
      · rintro ⟨a', ha', hre⟩
        cases ha'
        exact absurd hre hnot

theorem hasDescendantWalkF_eq_true (parent : StrMap String)
    (container : String) :
    ∀ n a, hasDescendantWalkF parent container n (some a) = some true →
      ReachesCont parent container a := by
  intro n
  induction n with
  | zero =>
    intro a h
    by_cases hs : a = container
    · exact .hit a hs
    · simp [hasDescendantWalkF, hs] at h
  | succ n ih =>
    intro a h
    by_cases hs : a = container
    · exact .hit a hs
    · simp only [hasDescendantWalkF, if_neg hs] at h
      cases hp : parent.get a with
      | none => rw [hp] at h; simp [hasDescendantWalkF] at h
      | some b => exact .step a b hs hp (ih b (by rw [hp] at h; exact h))

theorem hasDescendantWalkF_eq_false (parent : StrMap String)
    (container : String) :
    ∀ n a, hasDescendantWalkF parent container n (some a) = some false →
      ¬ ReachesCont parent container a := by
  intro n
  induction n with
  | zero =>
    intro a h
    by_cases hs : a = container <;> simp [hasDescendantWalkF, hs] at h
  | succ n ih =>
    intro a h
    by_cases hs : a = container
    · simp [hasDescendantWalkF, hs] at h
    · simp only [hasDescendantWalkF, if_neg hs] at h
      cases hp : parent.get a with
      | none =>
        intro hre
        cases hre with
        | hit _ hmem => exact hs hmem
        | step _ b hns hpb _ => rw [hp] at hpb; exact Option.noConfusion hpb
      | some b =>
        rw [hp] at h
        have hnb := ih b h
        intro hre
        cases hre with
        | hit _ hmem => exact hs hmem
        | step _ b' hns hpb hb =>
          rw [hp] at hpb
          cases hpb
          exact hnb hb

theorem hasDescendantWalkF_total (parent : StrMap String)
    (container : String) (rk : String → Nat)
    (hrk : ∀ a b, parent.get a = some b → rk b < rk a) :
    ∀ n a, rk a < n →
      ∃ b, hasDescendantWalkF parent container n (some a) = some b := by
  intro n
  induction n with
  | zero => intro a h; omega
  | succ n ih =>
    intro a ha
    by_cases hs : a = container
    · exact ⟨true, by simp [hasDescendantWalkF, hs]⟩
    · cases hp : parent.get a with
      | none =>
        refine ⟨false, ?_⟩
        simp [hasDescendantWalkF, hs, hp]
      | some b =>
        have hb : rk b < n := by have := hrk a b hp; omega
        obtain ⟨r, hr⟩ := ih b hb
        exact ⟨r, by simp [hasDescendantWalkF, hs, hp, hr]⟩

theorem hasDescendantWalkF_spec (parent : StrMap String)
    (container : String) (rk : String → Nat)
    (hrk : ∀ a b, parent.get a = some b → rk b < rk a)
    (n : Nat) (o : Option String) (ho : ∀ a, o = some a → rk a < n) :
    ∃ b, hasDescendantWalkF parent container n o = some b ∧
      (b = true ↔ ∃ a, o = some a ∧ ReachesCont parent container a) := by
  cases o with
  | none =>
    refine ⟨false, by simp [hasDescendantWalkF], ?_⟩
    simp
  | some a =>
    obtain ⟨b, hb⟩ := hasDescendantWalkF_total parent container rk hrk n a
      (ho a rfl)
    refine ⟨b, hb, ?_⟩
    cases b with
    | true =>
      simp only [true_iff]
      exact ⟨a, rfl, hasDescendantWalkF_eq_true parent container n a hb⟩
    | false =>
      have hnot := hasDescendantWalkF_eq_false parent container n a hb
      constructor
      · intro h; exact Bool.noConfusion h
      · rintro ⟨a', ha', hre⟩
        cases ha'
        exact absurd hre hnot

theorem getTopGo_spec (parent : StrMap String) (sel : List String)
    (fuel : Nat) (l : List String)
    (hl : ∀ e ∈ l,
      ∃ b, hasSelectedAncestorF parent sel fuel (parent.get e) = some b ∧
        (b = true ↔ ∃ p, parent.get e = some p ∧ ReachesSel parent sel p)) :
    ∃ r, getTopGo parent sel fuel l = some r ∧
      ∀ x, x ∈ r ↔ x ∈ l ∧
        ¬ ∃ p, parent.get x = some p ∧ ReachesSel parent sel p := by
  induction l with
  | nil => exact ⟨[], rfl, by simp⟩
  | cons e rest ih =>
    obtain ⟨b, hb, hbi⟩ := hl e (List.mem_cons_self e rest)
    obtain ⟨r, hr, hri⟩ := ih (fun x hx => hl x (List.mem_cons_of_mem e hx))
    cases b with
    | true =>
      have hre : ∃ p, parent.get e = some p ∧ ReachesSel parent sel p :=
        hbi.mp rfl
      refine ⟨r, by simp [getTopGo, hb, hr], ?_⟩
      intro x
      rw [hri]
      constructor
      · rintro ⟨hx, hnx⟩
        exact ⟨List.mem_cons_of_mem e hx, hnx⟩
      · rintro ⟨hx, hnx⟩
        rcases List.mem_cons.mp hx with heq | hx'
        · subst heq
          exact absurd hre hnx
        · exact ⟨hx', hnx⟩
    | false =>
      have hnre : ¬ ∃ p, parent.get e = some p ∧ ReachesSel parent sel p :=
        fun h => by simpa using hbi.mpr h
      refine ⟨e :: r, by simp [getTopGo, hb, hr], ?_⟩
      intro x
      constructor
      · intro hx
        rcases List.mem_cons.mp hx with heq | hx'
        · subst heq
          exact ⟨List.mem_cons_self x rest, hnre⟩
        · obtain ⟨hx'', hnx⟩ := (hri x).mp hx'
          exact ⟨List.mem_cons_of_mem e hx'', hnx⟩
      · rintro ⟨hx, hnx⟩
        rcases List.mem_cons.mp hx with heq | hx'
        · subst heq
          exact List.mem_cons_self x r
        · exact List.mem_cons_of_mem e ((hri x).mpr ⟨hx', hnx⟩)

def listRankMax (rk : String → Nat) : List String → Nat
  | [] => 0
  | x :: rest => max (rk x) (listRankMax rk rest)

theorem le_listRankMax (rk : String → Nat) (l : List String) :
    ∀ e ∈ l, rk e ≤ listRankMax rk l := by
  induction l with
  | nil => intro e he; cases he
  | cons x rest ih =>
    intro e he
    rcases List.mem_cons.mp he with heq | he'
    · subst heq
      exact Nat.le_max_left _ _
    · exact Nat.le_trans (ih e he') (Nat.le_max_right _ _)

/-- Claim C1, as amended: only under acyclicity of the group graph
(witnessed by a rank function decreasing along parent links) do the
ancestor walks of `getTopElements` and `hasDescendantElementImpl`
terminate; then `getTopElements` returns exactly the deduplicated input
elements with no selected ancestor, and `hasDescendantElementImpl`
decides parent-chain containment.  On cyclic graphs these two walks carry
no visited set and need not terminate
(`getTopElements_cyclic_never_terminates`). -/
theorem ancestor_walks_terminate_of_acyclic (parent : StrMap String)
    (elements : List String) (container elem : String) (rk : String → Nat)
    (hrk : ∀ a b, parent.get a = some b → rk b < rk a) :
    (∃ n r, getTopElementsF n parent elements = some r ∧
      ∀ x, x ∈ r ↔ x ∈ dedupFirst elements ∧
        ¬ ∃ p, parent.get x = some p ∧
          ReachesSel parent (dedupFirst elements) p) ∧
    (∃ n b, hasDescendantElementImplF n parent container elem = some b ∧
      (b = true ↔ ∃ p, parent.get elem = some p ∧
        ReachesCont parent container p)) := by
  constructor
  · have hl : ∀ e ∈ dedupFirst elements,
        ∃ b, hasSelectedAncestorF parent (dedupFirst elements)
            (listRankMax rk (dedupFirst elements) + 1) (parent.get e) =
              some b ∧
          (b = true ↔ ∃ p, parent.get e = some p ∧
            ReachesSel parent (dedupFirst elements) p) := by
      intro e he
      apply hasSelectedAncestorF_spec parent (dedupFirst elements) rk hrk
      intro a ha
      have h1 : rk a < rk e := hrk e a ha
      have h2 : rk e ≤ listRankMax rk (dedupFirst elements) :=
        le_listRankMax rk (dedupFirst elements) e he
      omega
    obtain ⟨r, hr, hri⟩ := getTopGo_spec parent (dedupFirst elements)
      (listRankMax rk (dedupFirst elements) + 1) (dedupFirst elements) hl
    exact ⟨listRankMax rk (dedupFirst elements) + 1, r, hr, hri⟩
  · obtain ⟨b, hb, hbi⟩ := hasDescendantWalkF_spec parent container rk hrk
      (rk elem + 1) (parent.get elem)
      (fun a ha => by have := hrk elem a ha; omega)
    exact ⟨rk elem + 1, b, hb, hbi⟩

/-- Witness for the amended C1 on a concrete acyclic graph: one element
`E` whose parent is `A`; both walks terminate. -/
theorem ancestor_walks_terminate_witness :
    (∃ n r, getTopElementsF n [("E", "A")] ["E"] = some r) ∧
    (∃ n b, hasDescendantElementImplF n [("E", "A")] "C" "E" = some b) := by
  have h := ancestor_walks_terminate_of_acyclic [("E", "A")] ["E"] "C" "E"
    (fun s => if s = "E" then 1 else 0)
    (by
      intro a b hab
      simp only [StrMap.get] at hab
      by_cases ha : ("E" : String) = a
      · rw [if_pos ha] at hab
        cases hab
        rw [← ha]
        simp
      · rw [if_neg ha] at hab
        exact Option.noConfusion hab)
  obtain ⟨⟨n, r, hr, _⟩, ⟨m, b, hbb, _⟩⟩ := h
  exact ⟨⟨n, r, hr⟩, ⟨m, b, hbb⟩⟩

/-! ## Descendant traversal (tree.ts: `traverse`, `descendantElementsImpl`)

A node of the element arena: whether it is group-compatible and, if so,
its `childElements` (as ids).  `traverse` keeps a visited set (tree.ts:101)
so it terminates on cyclic graphs; the recursion is embedded with fuel
bounding the nesting depth, `none` meaning the fuel ran out. -/

structure TreeNode where
  groupCompat : Bool
  childElements : List String
deriving DecidableEq

mutual

/-- `innerTraverse(element)` of `traverse` (tree.ts:103-121) specialised
to the callback of `descendantElementsImpl`, which pushes every visited
element and never interrupts.  Returns the final visited set and the list
of pushed elements. -/
def travGo (g : StrMap TreeNode) : Nat → List String → String →
    Option (List String × List String)
  | 0, _, _ => none
  | n + 1, visited, e =>
    if e ∈ visited then some (visited, [])
    else
      match g.get e with
      | some node =>
        if node.groupCompat then
          match travList g n (e :: visited) node.childElements with
          | none => none
          | some (v, outs) => some (v, e :: outs)
        else some (e :: visited, [e])
      | none => some (e :: visited, [e])

/-- `element.childElements.forEach(child => innerTraverse(child))`. -/
def travList (g : StrMap TreeNode) : Nat → List String → List String →
    Option (List String × List String)
  | _, visited, [] => some (visited, [])
  | n, visited, c :: cs =>
    match travGo g n visited c with
    | none => none
    | some (v1, o1) =>
      match travList g n v1 cs with
      | none => none
      | some (v2, o2) => some (v2, o1 ++ o2)

end

/-- `descendantElementsImpl(container)` (tree.ts:126-136): one `traverse`
call — with a fresh visited set — per child of the container. -/
def descendantElementsImplF (g : StrMap TreeNode) (fuel : Nat) :
    List String → Option (List String)
  | [] => some []
  | c :: cs => do
      let (_, out) ← travGo g fuel [] c
      let rest ← descendantElementsImplF g fuel cs
      pure (out ++ rest)

/-- Joint invariant of the traversal: the visited set only grows, the
pushed elements are pairwise distinct, and each pushed element is newly
visited (absent from the incoming visited set, present in the final
one). -/
theorem trav_invariant (g : StrMap TreeNode) :
    ∀ n : Nat,
      (∀ visited e v out, travGo g n visited e = some (v, out) →
        (∀ x ∈ visited, x ∈ v) ∧ out.Nodup ∧
          ∀ x ∈ out, x ∉ visited ∧ x ∈ v) ∧
      (∀ visited cs v out, travList g n visited cs = some (v, out) →
        (∀ x ∈ visited, x ∈ v) ∧ out.Nodup ∧
          ∀ x ∈ out, x ∉ visited ∧ x ∈ v) := by
  intro n
  induction n with
  | zero =>
    constructor
    · intro visited e v out h
      simp [travGo] at h
    · intro visited cs v out h
      cases cs with
      | nil =>
        simp only [travList, Option.some.injEq, Prod.mk.injEq] at h
        obtain ⟨rfl, rfl⟩ := h
        exact ⟨fun x hx => hx, List.nodup_nil, by simp⟩
      | cons c cs' => simp [travList, travGo] at h
  | succ n ih =>
    have hGo : ∀ visited e v out, travGo g (n + 1) visited e = some (v, out) →
        (∀ x ∈ visited, x ∈ v) ∧ out.Nodup ∧
          ∀ x ∈ out, x ∉ visited ∧ x ∈ v := by
      intro visited e v out h
      simp only [travGo] at h
      by_cases he : e ∈ visited
      · rw [if_pos he] at h
        simp only [Option.some.injEq, Prod.mk.injEq] at h
        obtain ⟨rfl, rfl⟩ := h
        exact ⟨fun x hx => hx, List.nodup_nil, by simp⟩
      · rw [if_neg he] at h
        have leafCase : ∀ (hv : e :: visited = v) (ho : [e] = out),
            (∀ x ∈ visited, x ∈ v) ∧ out.Nodup ∧
              ∀ x ∈ out, x ∉ visited ∧ x ∈ v := by
          intro hv ho
          subst hv; subst ho
          refine ⟨fun x hx => List.mem_cons_of_mem e hx,
            List.nodup_singleton e, ?_⟩
          intro x hx
          rw [List.mem_singleton] at hx
          subst hx
          exact ⟨he, List.mem_cons_self x visited⟩
        cases hg : g.get e with
        | none =>
          simp only [hg, Option.some.injEq, Prod.mk.injEq] at h
          exact leafCase h.1 h.2
        | some node =>
          simp only [hg] at h
          by_cases hc : node.groupCompat
          · rw [if_pos hc] at h
            cases hl : travList g n (e :: visited) node.childElements with
            | none => simp only [hl] at h; exact Option.noConfusion h
            | some p =>
              obtain ⟨v1, o1⟩ := p
              simp only [hl, Option.some.injEq, Prod.mk.injEq] at h
              obtain ⟨rfl, rfl⟩ := h
              obtain ⟨hmono, hnd, hout⟩ := (ih.2) (e :: visited)
                node.childElements v1 o1 hl
              refine ⟨?_, ?_, ?_⟩
              · intro x hx
                exact hmono x (List.mem_cons_of_mem e hx)
              · refine List.nodup_cons.mpr ⟨?_, hnd⟩
                intro hmem
                exact (hout e hmem).1 (List.mem_cons_self e visited)
              · intro x hx
                rcases List.mem_cons.mp hx with heq | hx'
                · subst heq
                  exact ⟨he, hmono x (List.mem_cons_self x visited)⟩
                · obtain ⟨hnx, hvx⟩ := hout x hx'
                  exact ⟨fun hxv => hnx (List.mem_cons_of_mem e hxv), hvx⟩
          · rw [if_neg hc] at h
            simp only [Option.some.injEq, Prod.mk.injEq] at h
            exact leafCase h.1 h.2
    refine ⟨hGo, ?_⟩
    intro visited cs
    induction cs generalizing visited with
    | nil =>
      intro v out h
      simp only [travList, Option.some.injEq, Prod.mk.injEq] at h
      obtain ⟨rfl, rfl⟩ := h
      exact ⟨fun x hx => hx, List.nodup_nil, by simp⟩
    | cons c cs' ihcs =>
      intro v out h
      simp only [travList] at h
      cases h1 : travGo g (n + 1) visited c with
      | none => simp only [h1] at h; exact Option.noConfusion h
      | some p1 =>
        obtain ⟨v1, o1⟩ := p1
        simp only [h1] at h
        cases h2 : travList g (n + 1) v1 cs' with
        | none => simp only [h2] at h; exact Option.noConfusion h
        | some p2 =>
          obtain ⟨v2, o2⟩ := p2
          simp only [h2, Option.some.injEq, Prod.mk.injEq] at h
          obtain ⟨rfl, rfl⟩ := h
          obtain ⟨m1, nd1, out1⟩ := hGo visited c v1 o1 h1
          obtain ⟨m2, nd2, out2⟩ := ihcs v1 v2 o2 h2
          refine ⟨fun x hx => m2 x (m1 x hx), ?_, ?_⟩
          · rw [List.nodup_append]
            refine ⟨nd1, nd2, ?_⟩
            intro x hx1 hx2
            exact (out2 x hx2).1 ((out1 x hx1).2)
          · intro x hx
            rcases List.mem_append.mp hx with hx1 | hx2
            · obtain ⟨hnx, hvx⟩ := out1 x hx1
              exact ⟨hnx, m2 x hvx⟩
            · obtain ⟨hnx, hvx⟩ := out2 x hx2
              exact ⟨fun hxv => hnx (m1 x hxv), hvx⟩

def keysOf {α : Type} : StrMap α → List String
  | [] => []
  | (k, _) :: rest => k :: keysOf rest

theorem get_some_mem_keysOf {α : Type} (g : StrMap α) (e : String) (v : α)
    (h : g.get e = some v) : e ∈ keysOf g := by
  induction g with
  | nil => simp [StrMap.get] at h
  | cons hd tl ih =>
    obtain ⟨k, w⟩ := hd
    by_cases hk : k = e
    · subst hk
      simp [keysOf]
    · simp only [StrMap.get, if_neg hk] at h
      simp only [keysOf, List.mem_cons]
      exact Or.inr (ih h)

/-- Number of arena keys not yet visited: the decreasing measure of the
visited-set traversal. -/
def unvisitedCard (g : StrMap TreeNode) (visited : List String) : Nat :=
  ((keysOf g).toFinset \ visited.toFinset).card

theorem unvisitedCard_mono (g : StrMap TreeNode) (v1 v2 : List String)
    (h : ∀ x ∈ v1, x ∈ v2) : unvisitedCard g v2 ≤ unvisitedCard g v1 := by
  apply Finset.card_le_card
  apply Finset.sdiff_subset_sdiff (Finset.Subset.refl _)
  intro x hx
  rw [List.mem_toFinset] at hx ⊢
  exact h x hx

theorem unvisitedCard_lt (g : StrMap TreeNode) (visited : List String)
    (e : String) (hk : e ∈ keysOf g) (hv : e ∉ visited) :
    unvisitedCard g (e :: visited) < unvisitedCard g visited := by
  apply Finset.card_lt_card
  rw [Finset.ssubset_iff_of_subset]
  · refine ⟨e, ?_, ?_⟩
    · rw [Finset.mem_sdiff, List.mem_toFinset, List.mem_toFinset]
      exact ⟨hk, hv⟩
    · rw [Finset.mem_sdiff, List.mem_toFinset, List.mem_toFinset]
      intro hcon
      exact absurd (List.mem_cons_self e visited) hcon.2
  · intro x hx
    rw [Finset.mem_sdiff, List.mem_toFinset, List.mem_toFinset] at hx ⊢
    refine ⟨hx.1, fun hxv => hx.2 (List.mem_cons_of_mem e hxv)⟩

/-- The traversal finishes whenever the fuel exceeds the number of
unvisited arena keys: the visited set (tree.ts:101) bounds the recursion
depth, so `traverse` terminates on every graph, cyclic or not. -/
theorem trav_total (g : StrMap TreeNode) :
    ∀ n : Nat,
      (∀ visited e, unvisitedCard g visited < n →
        travGo g n visited e ≠ none) ∧
      (∀ visited cs, unvisitedCard g visited < n →
        travList g n visited cs ≠ none) := by
  intro n
  induction n with
  | zero =>
    constructor <;> (intro visited _ h; omega)
  | succ n ih =>
    have hGo : ∀ visited e, unvisitedCard g visited < n + 1 →
        travGo g (n + 1) visited e ≠ none := by
      intro visited e hcard
      simp only [travGo]
      by_cases he : e ∈ visited
      · simp [he]
      · rw [if_neg he]
        cases hg : g.get e with
        | none => simp
        | some node =>
          simp only []
          by_cases hc : node.groupCompat
          · rw [if_pos hc]
            have hkey : e ∈ keysOf g := get_some_mem_keysOf g e node hg
            have hlt : unvisitedCard g (e :: visited) < n := by
              have := unvisitedCard_lt g visited e hkey he
              omega
            have hnl := ih.2 (e :: visited) node.childElements hlt
            cases hl : travList g n (e :: visited) node.childElements with
            | none => exact absurd hl hnl
            | some p =>
              obtain ⟨v1, o1⟩ := p
              simp
          · rw [if_neg hc]
            simp
    refine ⟨hGo, ?_⟩
    intro visited cs
    induction cs generalizing visited with
    | nil =>
      intro _
      simp [travList]
    | cons c cs' ihcs =>
      intro hcard
      simp only [travList]
      cases h1 : travGo g (n + 1) visited c with
      | none => exact absurd h1 (hGo visited c hcard)
      | some p1 =>
        obtain ⟨v1, o1⟩ := p1
        have hmono := ((trav_invariant g (n + 1)).1 visited c v1 o1 h1).1
        have hle : unvisitedCard g v1 ≤ unvisitedCard g visited :=
          unvisitedCard_mono g visited v1 hmono
        have hnl := ihcs v1 (by omega)
        cases h2 : travList g (n + 1) v1 cs' with
        | none => exact absurd h2 hnl
        | some p2 =>
          obtain ⟨v2, o2⟩ := p2
          simp [h1, h2]

/-- Cyclic arena with a container `G` whose two children `A`, `B` form a
2-cycle (`A` contains `B`, `B` contains `A`). -/
def dupGraph : StrMap TreeNode :=
  [("G", ⟨true, ["A", "B"]⟩), ("A", ⟨true, ["B"]⟩), ("B", ⟨true, ["A"]⟩)]

/-- The 2-cycle of the spec scenario: group `A` contains group `B` and
group `B` contains group `A`; `descendantElementsImpl(A)` traverses the
children of `A`, i.e. starts at `B`. -/
def cyc2Graph : StrMap TreeNode :=
  [("A", ⟨true, ["B"]⟩), ("B", ⟨true, ["A"]⟩)]

/-- Counterexample to claim C5: on the cyclic graph `dupGraph`
(container `G` with children `[A, B]`, where `A` and `B` form a 2-cycle)
`descendantElementsImpl(G)` terminates but returns `[A, B, B, A]` — the
elements appear twice, because `descendantElementsImpl` starts one
`traverse` per child of the container and each gets a fresh visited set
(tree.ts:130-134), so the claimed uniqueness of the result fails. -/
theorem descendantElements_duplicates_counterexample :
    dupGraph.get "A" = some ⟨true, ["B"]⟩ ∧
    dupGraph.get "B" = some ⟨true, ["A"]⟩ ∧
    descendantElementsImplF dupGraph 4 ["A", "B"] =
      some ["A", "B", "B", "A"] ∧
    ¬ (["A", "B", "B", "A"] : List String).Nodup := by
  refine ⟨by decide, by decide, ?_, by decide⟩
  simp [descendantElementsImplF, travGo, travList, dupGraph, StrMap.get]

/-- Claim C5, as amended: for every group graph, cyclic or not,
`descendantElementsImpl` terminates (fuel exceeding the number of arena
keys never runs out), and the `traverse` walk from each single child
pushes no element twice; but elements reachable from several of the
container's children may appear once per such child, so only the
per-child traversals are duplicate-free.  For the 2-cycle where group `A`
contains group `B` and group `B` contains group `A`,
`descendantElementsImpl(A)` returns exactly the 2 distinct elements
`[B, A]`. -/
theorem descendantElements_cycle_spec :
    (∀ (g : StrMap TreeNode) (children : List String),
      descendantElementsImplF g (unvisitedCard g [] + 1) children ≠ none) ∧
    (∀ (g : StrMap TreeNode) (n : Nat) (visited : List String) (c : String)
        (v out : List String),
      travGo g n visited c = some (v, out) → out.Nodup) ∧
    (descendantElementsImplF cyc2Graph 3 ["B"] = some ["B", "A"] ∧
      (["B", "A"] : List String).Nodup ∧
      (["B", "A"] : List String).length = 2) := by
  refine ⟨?_, ?_, ?_, by decide, by decide⟩
  · intro g children
    induction children with
    | nil => simp [descendantElementsImplF]
    | cons c cs ih =>
      simp only [descendantElementsImplF]
      have h1 := (trav_total g (unvisitedCard g [] + 1)).1 [] c (by omega)
      cases hg : travGo g (unvisitedCard g [] + 1) [] c with
      | none => exact absurd hg h1
      | some p =>
        obtain ⟨v, out⟩ := p
        cases hr : descendantElementsImplF g (unvisitedCard g [] + 1) cs with
        | none => exact absurd hr ih
        | some rest => simp [hg, hr]
  · intro g n visited c v out h
    exact ((trav_invariant g n).1 visited c v out h).2.1
  · simp [descendantElementsImplF, travGo, travList, cyc2Graph, StrMap.get]

/-- Witness for the amended C5: the concrete 2-cycle traversal from `B`
returns `[B, A]`, and by the per-child uniqueness part it has no
duplicates. -/
theorem descendantElements_cycle_spec_witness :
    travGo cyc2Graph 3 [] "B" = some (["A", "B"], ["B", "A"]) ∧
    (["B", "A"] : List String).Nodup := by
  have heval : travGo cyc2Graph 3 [] "B" = some (["A", "B"], ["B", "A"]) := by
    simp [travGo, travList, cyc2Graph, StrMap.get]
  exact ⟨heval,
    descendantElements_cycle_spec.2.1 cyc2Graph 3 [] "B" _ _ heval⟩

/-! ## Ungroup index-key generation (group-api.ts: `buildUngroupIndexes`)

The fractional-indexing library is external to the repository; it is
embedded as an oracle `KeyGen` whose calls either return (`Except.ok`) or
throw (`Except.error`).  `buildUngroupIndexes` is parameterised by the
oracle and by `count = orderedElements.length`. -/

structure KeyGen where
  genN : Option String → Option String → Nat → Except Unit (List String)
  genK : Option String → Option String → Except Unit String

/-- `tryGenerateN(left, right)` (group-api.ts:46-53): catch a throw, and
reject a result whose length mismatches the requested count. -/
def tryGenerateN (kg : KeyGen) (count : Nat) (left right : Option String) :
    Option (List String) :=
  match kg.genN left right count with
  | .error _ => none
  | .ok generated => if generated.length = count then some generated else none

/-- The cursor loop of `tryGenerateOneByOne` (group-api.ts:57-61). -/
def tryGenerateOneByOneGo (kg : KeyGen) (right : Option String) :
    Option String → Nat → Option (List String)
  | _, 0 => some []
  | cursor, n + 1 =>
    match kg.genK cursor right with
    | .error _ => none
    | .ok k =>
      match tryGenerateOneByOneGo kg right (some k) n with
      | none => none
      | some rest => some (k :: rest)

/-- `tryGenerateOneByOne(left, right)` (group-api.ts:55-65). -/
def tryGenerateOneByOne (kg : KeyGen) (count : Nat)
    (left right : Option String) : Option (List String) :=
  tryGenerateOneByOneGo kg right left count

/-- `buildUngroupIndexes` (group-api.ts:35-80): the fallback chain over
the generation strategies, `[]` when every strategy fails. -/
def buildUngroupIndexes (kg : KeyGen) (count : Nat)
    (afterIndex beforeIndex : Option String)
    (fallbackAnchorIndex : String) : List String :=
  if count = 0 then []
  else
    ((tryGenerateN kg count afterIndex beforeIndex).orElse fun _ =>
      (tryGenerateN kg count afterIndex none).orElse fun _ =>
        (tryGenerateN kg count (some fallbackAnchorIndex) none).orElse fun _ =>
          (tryGenerateN kg count none none).orElse fun _ =>
            tryGenerateOneByOne kg count none none).getD []

/-- The oracle of the unit-test scenario
(group-api.unit.spec.ts:92-128): `generateNKeysBetween` throws on the
degenerate interval `(a0, a0)` and returns `[n0, n1]` on `(a0, null)`
for 2 keys; everything else throws. -/
def mockKeyGen : KeyGen where
  genN left right count :=
    if left = some "a0" ∧ right = some "a0" then .error ()
    else if left = some "a0" ∧ right = none ∧ count = 2 then .ok ["n0", "n1"]
    else .error ()
  genK _ _ := .error ()

/-- Claim C3: `buildUngroupIndexes` never throws (it is total for every
oracle, each strategy catching the library's exceptions) and tries the
strategies in the fixed priority order (afterIndex, beforeIndex),
(afterIndex, null), (fallbackAnchor, null), (null, null), then chained
one-at-a-time generation, each tried only if the previous raises or
returns a mismatched count ([] when even the last resort fails); in
particular, for bounds (a0, a0) requesting 2 keys where batch generation
throws on (a0, a0) and returns [n0, n1] on (a0, null), the result is
those 2 keys, strictly ordered. -/
theorem buildUngroupIndexes_fallback_chain :
    (∀ (kg : KeyGen) (count : Nat) (a b : Option String) (anchor : String)
        (ks : List String), count ≠ 0 →
      (tryGenerateN kg count a b = some ks →
        buildUngroupIndexes kg count a b anchor = ks) ∧
      (tryGenerateN kg count a b = none →
        tryGenerateN kg count a none = some ks →
        buildUngroupIndexes kg count a b anchor = ks) ∧
      (tryGenerateN kg count a b = none →
        tryGenerateN kg count a none = none →
        tryGenerateN kg count (some anchor) none = some ks →
        buildUngroupIndexes kg count a b anchor = ks) ∧
      (tryGenerateN kg count a b = none →
        tryGenerateN kg count a none = none →
        tryGenerateN kg count (some anchor) none = none →
        tryGenerateN kg count none none = some ks →
        buildUngroupIndexes kg count a b anchor = ks) ∧
      (tryGenerateN kg count a b = none →
        tryGenerateN kg count a none = none →
        tryGenerateN kg count (some anchor) none = none →
        tryGenerateN kg count none none = none →
        tryGenerateOneByOne kg count none none = some ks →
        buildUngroupIndexes kg count a b anchor = ks) ∧
      (tryGenerateN kg count a b = none →
        tryGenerateN kg count a none = none →
        tryGenerateN kg count (some anchor) none = none →
        tryGenerateN kg count none none = none →
        tryGenerateOneByOne kg count none none = none →
        buildUngroupIndexes kg count a b anchor = [])) ∧
    (buildUngroupIndexes mockKeyGen 2 (some "a0") (some "a0") "m0" =
        ["n0", "n1"] ∧
      ("n0" : String) < "n1") := by
  constructor
  · intro kg count a b anchor ks hcount
    refine ⟨?_, ?_, ?_, ?_, ?_, ?_⟩
    · intro h1
      simp [buildUngroupIndexes, hcount, h1, Option.orElse]
    · intro h1 h2
      simp [buildUngroupIndexes, hcount, h1, h2, Option.orElse]
    · intro h1 h2 h3
      simp [buildUngroupIndexes, hcount, h1, h2, h3, Option.orElse]
    · intro h1 h2 h3 h4
      simp [buildUngroupIndexes, hcount, h1, h2, h3, h4, Option.orElse]
    · intro h1 h2 h3 h4 h5
      simp [buildUngroupIndexes, hcount, h1, h2, h3, h4, h5, Option.orElse]
    · intro h1 h2 h3 h4 h5
      simp [buildUngroupIndexes, hcount, h1, h2, h3, h4, h5, Option.orElse]
  · refine ⟨by decide, ?_⟩
    rw [String.lt_iff_toList_lt]
    decide

/-- Witness for C3: the fallback-order part applied to the mocked oracle
of the unit test — the first strategy fails on the reversed interval, the
second succeeds open-endedly, and the produced keys are ordered. -/
theorem buildUngroupIndexes_fallback_chain_witness :
    buildUngroupIndexes mockKeyGen 2 (some "a0") (some "a0") "m0" =
      ["n0", "n1"] ∧ ("n0" : String) < "n1" := by
  have h := buildUngroupIndexes_fallback_chain
  refine ⟨(h.1 mockKeyGen 2 (some "a0") (some "a0") "m0" ["n0", "n1"]
      (by decide)).2.1 (by decide) (by decide), ?_⟩
  rw [String.lt_iff_toList_lt]
  decide

/-! ## Surface block model state (surface-model.ts)

The observable state of a `SurfaceBlockModel`: the live element models
(`_elementModels`), the block store entries that can also be
group-compatible, the group-like model registry (`_groupLikeModels`, ids
in insertion order; the models themselves are shared with the element /
block arenas), the two group-index maps, the readonly flag of the store
and the registered element types (`_elementCtorMap` keys).  Y-specific
value conversion (`_propsToY` text/map boxing) acts on the plain string
payloads as the identity; the per-type element list `_elementTypeMap` is
not needed by any settled claim and is omitted. -/

instance {α : Type} [DecidableEq α] : DecidableEq (StrMap α) :=
  inferInstanceAs (DecidableEq (List (String × α)))

structure ElemModel where
  etype : String
  groupCompat : Bool
  childIds : List String
  props : StrMap String
deriving DecidableEq

structure SurfaceState where
  readonly : Bool
  registeredTypes : List String
  elementModels : StrMap ElemModel
  blocks : StrMap ElemModel
  groupLikeKeys : List String
  parentGroupMap : StrMap String
  groupChildIdsMap : StrMap (List String)
deriving DecidableEq

inductive SurfaceError
  | readonlyViolation
  | elementNotFound (id : String)
  | invalidElementType (t : String)
deriving DecidableEq

def hasElementById (s : SurfaceState) (id : String) : Bool :=
  (s.elementModels.get id).isSome

/-- `this.getElementById(elem) ?? this.store.getBlock(elem)?.model`. -/
def resolveModel (s : SurfaceState) (id : String) : Option ElemModel :=
  match s.elementModels.get id with
  | some m => some m
  | none => s.blocks.get id

/-- The child ids of the group-like model registered under `gid` (the
registry shares the model objects with the element/block arenas). -/
def groupChildIdsOf (s : SurfaceState) (gid : String) : List String :=
  match resolveModel s gid with
  | some m => m.childIds
  | none => []

/-- `group.hasChild(model)`. -/
def hasChildModel (s : SurfaceState) (gid modelId : String) : Bool :=
  modelId ∈ groupChildIdsOf s gid

/-- The `for (const group of this._groupLikeModels.values())` containment
scan of `getGroup` (surface-model.ts:809-814), in registry order. -/
def scanGroups (s : SurfaceState) : List String → String → Option String
  | [], _ => none
  | gid :: rest, modelId =>
      if hasChildModel s gid modelId then some gid
      else scanGroups s rest modelId

/-- The fallthrough of `getGroup` after the cache probe
(surface-model.ts:799-816): resolve the model, scan all known groups, and
cache the scan result on success. -/
def getGroupMiss (s : SurfaceState) (id : String) :
    Option String × SurfaceState :=
  match resolveModel s id with
  | none => (none, s)
  | some _ =>
    match scanGroups s s.groupLikeKeys id with
    | some gid =>
        (some gid, { s with parentGroupMap := s.parentGroupMap.set id gid })
    | none => (none, s)

/-- `getGroup(elem)` (surface-model.ts:786-817), id form.  A cached
parent id resolving to a registered live group is returned as-is; a
cached id that no longer resolves is purged before falling back to the
scan. -/
def getGroup (s : SurfaceState) (id : String) :
    Option String × SurfaceState :=
  match s.parentGroupMap.get id with
  | some parentGroupId =>
    if parentGroupId ∈ s.groupLikeKeys then (some parentGroupId, s)
    else
      getGroupMiss
        { s with parentGroupMap := s.parentGroupMap.del id } id
  | none => getGroupMiss s id

/-- `parentGroup.removeChild(element)` together with the synchronous
observer consequence: the group model's `childIds` lose the element and
`_emitElementUpdated` resyncs the group index for an element-backed
group (with the old child list), while a block-backed group resyncs via
the `blockUpdated` handler (without it). -/
def removeChildFromGroup (s : SurfaceState) (gid elemId : String) :
    SurfaceState :=
  match s.elementModels.get gid with
  | some gm =>
    let newChildren := gm.childIds.filter (fun x => x != elemId)
    let arena := s.elementModels.set gid { gm with childIds := newChildren }
    let s1 := { s with elementModels := arena }
    let gi := syncGroupChildrenIndex
      ⟨s1.parentGroupMap, s1.groupChildIdsMap⟩ gid newChildren
      (some gm.childIds)
    { s1 with parentGroupMap := gi.parentGroupMap,
              groupChildIdsMap := gi.groupChildIdsMap }
  | none =>
    match s.blocks.get gid with
    | some gm =>
      let newChildren := gm.childIds.filter (fun x => x != elemId)
      let arena := s.blocks.set gid { gm with childIds := newChildren }
      let s1 := { s with blocks := arena }
      let gi := syncGroupChildrenIndex
        ⟨s1.parentGroupMap, s1.groupChildIdsMap⟩ gid newChildren none
      { s1 with parentGroupMap := gi.parentGroupMap,
                groupChildIdsMap := gi.groupChildIdsMap }
    | none => s

/-- `_removeFromParentGroupIfNeeded(element, deleteElementIds)`
(surface-model.ts:600-622). -/
def removeFromParentGroupIfNeeded (s : SurfaceState) (elemId : String)
    (delIds : List String) : SurfaceState :=
  match s.parentGroupMap.get elemId with
  | some pid =>
    if pid ∈ delIds then s
    else
      let probe : Option String × SurfaceState :=
        if pid ∈ s.groupLikeKeys then (some pid, s) else getGroup s elemId
      match probe with
      | (some g, s1) =>
          if g ∈ delIds then s1 else removeChildFromGroup s1 g elemId
      | (none, s1) => s1
  | none =>
    match getGroup s elemId with
    | (some g, s1) =>
        if g ∈ delIds then s1 else removeChildFromGroup s1 g elemId
    | (none, s1) => s1

mutual

/-- `_collectElementsToDelete` (surface-model.ts:141-177).  Collection
state: `(deleteElementIds, orderedDeleteIds, deleteBlockIds)`; fuel
bounds the recursion depth (the visited-set guard `deleteElementIds`
makes the arena-size bound sufficient). -/
def collectGo (s : SurfaceState) : Nat → String →
    List String → List String → List String →
    List String × List String × List String
  | 0, _, delIds, ordered, delBlocks => (delIds, ordered, delBlocks)
  | n + 1, id, delIds, ordered, delBlocks =>
    if id ∈ delIds then (delIds, ordered, delBlocks)
    else
      match s.elementModels.get id with
      | none => (delIds, ordered, delBlocks)
      | some element =>
        if element.groupCompat then
          let r := collectChildren s n element.childIds
            (id :: delIds) ordered delBlocks
          (r.1, r.2.1 ++ [id], r.2.2)
        else (id :: delIds, ordered ++ [id], delBlocks)

/-- The `element.childIds.forEach` loop of `_collectElementsToDelete`:
recurse into live element children, queue block-backed children for block
deletion. -/
def collectChildren (s : SurfaceState) : Nat → List String →
    List String → List String → List String →
    List String × List String × List String
  | _, [], delIds, ordered, delBlocks => (delIds, ordered, delBlocks)
  | n, c :: cs, delIds, ordered, delBlocks =>
    let r :=
      if (s.elementModels.get c).isSome then
        collectGo s n c delIds ordered delBlocks
      else if (s.blocks.get c).isSome then
        (delIds, ordered, if c ∈ delBlocks then delBlocks else c :: delBlocks)
      else (delIds, ordered, delBlocks)
    collectChildren s n cs r.1 r.2.1 r.2.2

end

/-- The `delete` branch of the `onElementsMapChange` observer for one
removed key (surface-model.ts:388-395 with `removeFromType`,
surface-model.ts:329-343): drop the reverse-lookup entry, tear down a
group-like model's index entries, and unregister the element model. -/
def observerDeleteOne (s : SurfaceState) (eid : String) : SurfaceState :=
  match s.elementModels.get eid with
  | none => s
  | some m =>
    let s1 := { s with parentGroupMap := s.parentGroupMap.del eid }
    let s2 :=
      if m.groupCompat then
        let gi := removeGroupFromChildrenIndex
          ⟨s1.parentGroupMap, s1.groupChildIdsMap⟩ eid
        { s1 with parentGroupMap := gi.parentGroupMap,
                  groupChildIdsMap := gi.groupChildIdsMap,
                  groupLikeKeys := s1.groupLikeKeys.filter (fun x => x != eid) }
      else s1
    { s2 with elementModels := s2.elementModels.del eid }

/-- `store.deleteBlock(block)` for a collected block-backed child,
preceded by `_removeFromParentGroupIfNeeded` (surface-model.ts:744-756),
with the `blockUpdated` `delete` handler (surface-model.ts:462-476). -/
def deleteBlockOne (s : SurfaceState) (blockId : String)
    (delIds : List String) : SurfaceState :=
  match s.blocks.get blockId with
  | none => s
  | some bm =>
    let s1 := removeFromParentGroupIfNeeded s blockId delIds
    let s2 :=
      if bm.groupCompat then
        let gi := removeGroupFromChildrenIndex
          ⟨s1.parentGroupMap, s1.groupChildIdsMap⟩ blockId
        { s1 with parentGroupMap := gi.parentGroupMap,
                  groupChildIdsMap := gi.groupChildIdsMap,
                  groupLikeKeys := s1.groupLikeKeys.filter (fun x => x != blockId) }
      else s1
    let s4 :=
      match getGroup s2 blockId with
      | (some g, s3) => removeChildFromGroup s3 g blockId
      | (none, s3) => s3
    { s4 with parentGroupMap := s4.parentGroupMap.del blockId,
              blocks := s4.blocks.del blockId }

/-- `deleteElement(id)` (surface-model.ts:707-759): readonly guard,
silent return for an unknown id, then the collected post-order cascade —
per element first `_removeFromParentGroupIfNeeded` inside the
transaction, then the observer teardown per deleted key, then the queued
block deletions. -/
def deleteElement (s : SurfaceState) (id : String) :
    Except SurfaceError SurfaceState :=
  if s.readonly then .error .readonlyViolation
  else if hasElementById s id = false then .ok s
  else
    let fuel := (keysOf s.elementModels).length + 1
    let col := collectGo s fuel id [] [] []
    let delIds := col.1
    let ordered := col.2.1
    let delBlocks := col.2.2
    if ordered.length = 0 then .ok s
    else
      let s2 := ordered.foldl
        (fun acc eid =>
          if (acc.elementModels.get eid).isSome then
            removeFromParentGroupIfNeeded acc eid delIds
          else acc) s
      let s3 := ordered.foldl (fun acc eid => observerDeleteOne acc eid) s2
      let s4 := delBlocks.foldl
        (fun acc bid => deleteBlockOne acc bid delIds) s3
      .ok s4

/-- `_propsToY` (surface-model.ts:497-526) on plain payloads: only the
constructor-registry check can fail. -/
def propsToY (s : SurfaceState) (etype : String) (props : StrMap String) :
    Except SurfaceError (StrMap String) :=
  if etype ∈ s.registeredTypes then .ok props
  else .error (.invalidElementType etype)

/-- `updateElement(id, props)` (surface-model.ts:862-887). -/
def updateElement (s : SurfaceState) (id : String) (props : StrMap String) :
    Except SurfaceError SurfaceState :=
  if s.readonly then .error .readonlyViolation
  else
    match s.elementModels.get id with
    | none => .error (.elementNotFound id)
    | some elementModel =>
      match propsToY s elementModel.etype props with
      | .error e => .error e
      | .ok converted =>
        let updated := { elementModel with
          props := converted.foldl (fun m kv => m.set kv.1 kv.2)
            elementModel.props }
        .ok { s with elementModels := s.elementModels.set id updated }

/-- A state in which the cached parent of element `e` is the live group
`G`, but `G` no longer contains `e`, while group `H` does contain it. -/
def staleCacheState : SurfaceState where
  readonly := false
  registeredTypes := ["testShape", "group"]
  elementModels :=
    [("e", ⟨"testShape", false, [], []⟩),
     ("G", ⟨"group", true, [], []⟩),
     ("H", ⟨"group", true, ["e"], []⟩)]
  blocks := []
  groupLikeKeys := ["G", "H"]
  parentGroupMap := [("e", "G")]
  groupChildIdsMap := []

/-- Counterexample to claim C2: when the cached parent group is still a
registered live group but no longer actually contains the element,
`getGroup` returns it as-is — no purge and no containment scan — whereas
the claim demands purging the stale entry and returning the scan result
(here the group `H` that does contain `e`). -/
theorem getGroup_stale_live_counterexample :
    getGroup staleCacheState "e" = (some "G", staleCacheState) ∧
    hasChildModel staleCacheState "G" "e" = false ∧
    scanGroups staleCacheState staleCacheState.groupLikeKeys "e" =
      some "H" ∧
    ("G" : String) ≠ "H" := by decide

/-- Claim C2, as amended: the purge-and-scan of `getGroup` happens
exactly when the cached parent id no longer resolves to a registered
live group (and the scan alone on a plain cache miss): then the stale
entry is deleted and the scan result returned, a successful scan caching
the found parent while a failed scan leaves the entry absent; a cached
id that does resolve to a live group is returned without any containment
check. -/
theorem getGroup_cache_spec (s : SurfaceState) (id pid gid : String) :
    (s.parentGroupMap.get id = some pid → pid ∈ s.groupLikeKeys →
      getGroup s id = (some pid, s)) ∧
    (s.parentGroupMap.get id = some pid → pid ∉ s.groupLikeKeys →
      getGroup s id =
        getGroupMiss
          { s with parentGroupMap := s.parentGroupMap.del id } id) ∧
    (s.parentGroupMap.get id = none → getGroup s id = getGroupMiss s id) ∧
    ((resolveModel s id).isSome = true →
      scanGroups s s.groupLikeKeys id = some gid →
      getGroupMiss s id =
        (some gid,
          { s with parentGroupMap := s.parentGroupMap.set id gid })) ∧
    ((resolveModel s id).isSome = true →
      scanGroups s s.groupLikeKeys id = none →
      getGroupMiss s id = (none, s)) ∧
    ((resolveModel s id).isSome = false → getGroupMiss s id = (none, s)) := by
  refine ⟨?_, ?_, ?_, ?_, ?_, ?_⟩
  · intro h1 h2
    simp [getGroup, h1, h2]
  · intro h1 h2
    simp [getGroup, h1, h2]
  · intro h1
    simp [getGroup, h1]
  · intro h1 h2
    cases hr : resolveModel s id with
    | none => rw [hr] at h1; simp at h1
    | some m => simp [getGroupMiss, hr, h2]
  · intro h1 h2
    cases hr : resolveModel s id with
    | none => rw [hr] at h1; simp at h1
    | some m => simp [getGroupMiss, hr, h2]
  · intro h1
    cases hr : resolveModel s id with
    | none => simp [getGroupMiss, hr]
    | some m => rw [hr] at h1; simp at h1

/-- The scenario of the stale-cache recovery test: a shape whose cache
entry points at a vanished group id, while a live group contains it. -/
def staleRecoveryState : SurfaceState where
  readonly := false
  registeredTypes := ["testShape", "group"]
  elementModels :=
    [("shape", ⟨"testShape", false, [], []⟩),
     ("fallback", ⟨"group", true, ["shape"], []⟩)]
  blocks := []
  groupLikeKeys := ["fallback"]
  parentGroupMap := [("shape", "stale-group-id")]
  groupChildIdsMap := []

/-- Witness for the amended C2 on the recovery scenario: the cached id
does not resolve to a live group, so the entry is purged, the scan finds
the containing group and the cache is updated to it. -/
theorem getGroup_cache_spec_witness :
    getGroup staleRecoveryState "shape" =
      (some "fallback",
        { staleRecoveryState with
            parentGroupMap := [("shape", "fallback")] }) := by
  have ha := (getGroup_cache_spec staleRecoveryState "shape"
    "stale-group-id" "fallback").2.1 (by decide) (by decide)
  rw [ha]
  decide

/-- Claim C6: while the store is writable, an id with no live element
makes `updateElement` throw `ElementNotFound` while `deleteElement`
returns silently with the state unchanged. -/
theorem update_delete_missing_element (s : SurfaceState) (id : String)
    (props : StrMap String) (hro : s.readonly = false)
    (hmiss : hasElementById s id = false) :
    updateElement s id props = .error (.elementNotFound id) ∧
    deleteElement s id = .ok s := by
  constructor
  · cases hget : s.elementModels.get id with
    | some m =>
      exfalso
      simp [hasElementById, hget] at hmiss
    | none => simp [updateElement, hro, hget]
  · simp [deleteElement, hro, hmiss]

def emptySurface : SurfaceState where
  readonly := false
  registeredTypes := ["testShape"]
  elementModels := []
  blocks := []
  groupLikeKeys := []
  parentGroupMap := []
  groupChildIdsMap := []

/-- Witness for C6 at the concrete empty writable surface. -/
theorem update_delete_missing_element_witness :
    updateElement emptySurface "ghost" [] =
      .error (.elementNotFound "ghost") ∧
    deleteElement emptySurface "ghost" = .ok emptySurface :=
  update_delete_missing_element emptySurface "ghost" [] rfl (by decide)

/-- Claim C10: `deleteElement` checks the readonly flag before element
existence, so deleting any id — including a missing one — in a readonly
store throws; the silent no-op applies only to a writable store. -/
theorem deleteElement_readonly_first (s : SurfaceState) (id : String)
    (h : s.readonly = true) :
    deleteElement s id = .error .readonlyViolation := by
  simp [deleteElement, h]

def readonlySurface : SurfaceState := { emptySurface with readonly := true }

/-- Witness for C10: a readonly store with no element `ghost` still
throws on `deleteElement("ghost")`. -/
theorem deleteElement_readonly_first_witness :
    deleteElement readonlySurface "ghost" = .error .readonlyViolation ∧
    hasElementById readonlySurface "ghost" = false :=
  ⟨deleteElement_readonly_first readonlySurface "ghost" rfl, by decide⟩

/-! ## Connector endpoint index (affine surface block model)

State of the `SurfaceBlockModel` subclass that owns the endpoint index:
the live element models, `_connectorIdsByEndpoint` (endpoint id → set of
connector ids, the set embedded as a duplicate-free list) and
`_connectorEndpoints` (connector id → cached endpoint pair). -/

structure ConnState where
  elementModels : StrMap ElemModel
  connectorIdsByEndpoint : StrMap (List String)
  connectorEndpoints : StrMap (Option String × Option String)
deriving DecidableEq

/-- `_isConnectorModel(model)` after `getElementById`. -/
def isConnectorModel (s : ConnState) (cid : String) : Bool :=
  match s.elementModels.get cid with
  | some m => m.etype == "connector"
  | none => false

/-- The cached endpoint pair of `cid` names `id` as source or target. -/
def endpointMentions (s : ConnState) (cid id : String) : Bool :=
  match s.connectorEndpoints.get cid with
  | some ep => ep.1 == some id || ep.2 == some id
  | none => false

/-- `_removeConnectorEndpoint(endpointId, connectorId)` (part_006:70-82). -/
def removeConnectorEndpoint (s : ConnState) (endpointId connectorId : String) :
    ConnState :=
  match s.connectorIdsByEndpoint.get endpointId with
  | none => s
  | some connectorIds =>
    let remaining := connectorIds.filter (fun y => y != connectorId)
    if remaining.length = 0 then
      { s with connectorIdsByEndpoint :=
          s.connectorIdsByEndpoint.del endpointId }
    else
      { s with connectorIdsByEndpoint :=
          s.connectorIdsByEndpoint.set endpointId remaining }

/-- `_removeConnectorFromIndex(connectorId)` (part_006:84-100). -/
def removeConnectorFromIndex (s : ConnState) (connectorId : String) :
    ConnState :=
  match s.connectorEndpoints.get connectorId with
  | none => s
  | some endpoints =>
    let s1 := match endpoints.1 with
      | some src => removeConnectorEndpoint s src connectorId
      | none => s
    let s2 := match endpoints.2 with
      | some tgt => removeConnectorEndpoint s1 tgt connectorId
      | none => s1
    { s2 with connectorEndpoints := s2.connectorEndpoints.del connectorId }

/-- `getConnectors(id)` (part_006:190-216): split the endpoint set by
liveness on the incoming state, return the live connectors, then purge
every stale id from the index. -/
def getConnectors (s : ConnState) (id : String) : List String × ConnState :=
  match s.connectorIdsByEndpoint.get id with
  | none => ([], s)
  | some connectorIds =>
    if connectorIds.length = 0 then ([], s)
    else
      let connectors := connectorIds.filter (fun cid => isConnectorModel s cid)
      let staleConnectorIds :=
        connectorIds.filter (fun cid => !(isConnectorModel s cid))
      (connectors,
        staleConnectorIds.foldl
          (fun acc cid => removeConnectorFromIndex acc cid) s)

theorem removeConnectorEndpoint_not_mem (s : ConnState) (x cid : String) :
    cid ∉
      ((removeConnectorEndpoint s x cid).connectorIdsByEndpoint.get x).getD
        [] := by
  unfold removeConnectorEndpoint
  cases h : s.connectorIdsByEndpoint.get x with
  | none => simp [h]
  | some ids =>
    by_cases hlen : (ids.filter (fun y => y != cid)).length = 0
    · simp [h, hlen, StrMap.get_del_eq]
    · simp only [h, hlen, if_false, StrMap.get_set_eq, Option.getD_some]
      intro hmem
      have := (List.mem_filter.mp hmem).2
      simp at this

theorem removeConnectorEndpoint_preserves_not_mem (s : ConnState)
    (x c key cOther : String)
    (h : cOther ∉ ((s.connectorIdsByEndpoint.get key).getD [])) :
    cOther ∉
      ((removeConnectorEndpoint s x c).connectorIdsByEndpoint.get key).getD
        [] := by
  unfold removeConnectorEndpoint
  cases hget : s.connectorIdsByEndpoint.get x with
  | none => simpa [hget] using h
  | some ids =>
    by_cases hlen : (ids.filter (fun y => y != c)).length = 0
    · simp only [hget, hlen, if_true, StrMap.get_del]
      by_cases hxk : x = key
      · simp [hxk]
      · simpa [hxk] using h
    · simp only [hget, hlen, if_false, StrMap.get_set]
      by_cases hxk : x = key
      · subst hxk
        rw [hget] at h
        simp only [if_pos rfl, Option.getD_some]
        intro hmem
        exact h (by simpa using (List.mem_filter.mp hmem).1)
      · simpa [hxk] using h

theorem removeConnectorEndpoint_endpoints (s : ConnState) (x c : String) :
    (removeConnectorEndpoint s x c).connectorEndpoints =
      s.connectorEndpoints := by
  unfold removeConnectorEndpoint
  cases h : s.connectorIdsByEndpoint.get x with
  | none => rfl
  | some ids =>
    by_cases hlen : (ids.filter (fun y => y != c)).length = 0 <;>
      simp [hlen]

theorem removeConnectorFromIndex_not_mem (s : ConnState) (cid id : String)
    (hm : endpointMentions s cid id = true) :
    cid ∉
      ((removeConnectorFromIndex s cid).connectorIdsByEndpoint.get
        id).getD [] := by
  unfold endpointMentions at hm
  unfold removeConnectorFromIndex
  cases hep : s.connectorEndpoints.get cid with
  | none => rw [hep] at hm; simp at hm
  | some ep =>
    rw [hep] at hm
    obtain ⟨src, tgt⟩ := ep
    simp only [hep]
    simp only [Bool.or_eq_true, beq_iff_eq] at hm
    rcases hm with h1 | h2
    · subst h1
      cases tgt with
      | none =>
        exact removeConnectorEndpoint_not_mem s id cid
      | some t =>
        exact removeConnectorEndpoint_preserves_not_mem _ t cid id cid
          (removeConnectorEndpoint_not_mem s id cid)
    · subst h2
      cases src with
      | none => exact removeConnectorEndpoint_not_mem s id cid
      | some sr =>
        exact removeConnectorEndpoint_not_mem
          (removeConnectorEndpoint s sr cid) id cid

theorem removeConnectorFromIndex_preserves_not_mem (s : ConnState)
    (c key cOther : String)
    (h : cOther ∉ ((s.connectorIdsByEndpoint.get key).getD [])) :
    cOther ∉
      ((removeConnectorFromIndex s c).connectorIdsByEndpoint.get key).getD
        [] := by
  unfold removeConnectorFromIndex
  cases hep : s.connectorEndpoints.get c with
  | none => simpa using h
  | some ep =>
    obtain ⟨src, tgt⟩ := ep
    simp only []
    have h1 : cOther ∉
        (((match src with
            | some sr => removeConnectorEndpoint s sr c
            | none => s).connectorIdsByEndpoint.get key).getD []) := by
      cases src with
      | none => exact h
      | some sr => exact removeConnectorEndpoint_preserves_not_mem s sr c key cOther h
    cases tgt with
    | none => exact h1
    | some t => exact removeConnectorEndpoint_preserves_not_mem _ t c key cOther h1

theorem removeConnectorFromIndex_endpoints_other (s : ConnState)
    (c cOther : String) (h : cOther ≠ c) :
    (removeConnectorFromIndex s c).connectorEndpoints.get cOther =
      s.connectorEndpoints.get cOther := by
  have hne : c ≠ cOther := fun hh => h hh.symm
  unfold removeConnectorFromIndex
  cases hep : s.connectorEndpoints.get c with
  | none => rfl
  | some ep =>
    obtain ⟨src, tgt⟩ := ep
    cases tgt with
    | none =>
      cases src with
      | none =>
        dsimp only
        rw [StrMap.get_del_ne _ c cOther hne]
      | some sr =>
        dsimp only
        rw [StrMap.get_del_ne _ c cOther hne,
          removeConnectorEndpoint_endpoints]
    | some t =>
      cases src with
      | none =>
        dsimp only
        rw [StrMap.get_del_ne _ c cOther hne,
          removeConnectorEndpoint_endpoints]
      | some sr =>
        dsimp only
        rw [StrMap.get_del_ne _ c cOther hne,
          removeConnectorEndpoint_endpoints,
          removeConnectorEndpoint_endpoints]

theorem foldRemove_preserves_not_mem (key cOther : String) :
    ∀ (l : List String) (s : ConnState),
      cOther ∉ ((s.connectorIdsByEndpoint.get key).getD []) →
      cOther ∉
        (((l.foldl (fun acc c => removeConnectorFromIndex acc c)
          s).connectorIdsByEndpoint.get key).getD []) := by
  intro l
  induction l with
  | nil => intro s h; exact h
  | cons c rest ih =>
    intro s h
    exact ih (removeConnectorFromIndex s c)
      (removeConnectorFromIndex_preserves_not_mem s c key cOther h)

theorem foldRemove_removes (id : String) :
    ∀ (stale : List String) (s : ConnState), stale.Nodup →
      (∀ cid ∈ stale, endpointMentions s cid id = true) →
      ∀ cid ∈ stale,
        cid ∉
          (((stale.foldl (fun acc c => removeConnectorFromIndex acc c)
            s).connectorIdsByEndpoint.get id).getD []) := by
  intro stale
  induction stale with
  | nil => intro s _ _ cid hmem; cases hmem
  | cons c rest ih =>
    intro s hnd hcoh cid hmem
    obtain ⟨hcr, hndr⟩ := List.nodup_cons.mp hnd
    simp only [List.foldl_cons]
    rcases List.mem_cons.mp hmem with heq | hmem'
    · subst heq
      exact foldRemove_preserves_not_mem id cid rest
        (removeConnectorFromIndex s cid)
        (removeConnectorFromIndex_not_mem s cid id
          (hcoh cid (List.mem_cons_self cid rest)))
    · refine ih (removeConnectorFromIndex s c) hndr ?_ cid hmem'
      intro cid2 hmem2
      have hne : cid2 ≠ c := fun hh => hcr (hh ▸ hmem2)
      have := hcoh cid2 (List.mem_cons_of_mem c hmem2)
      unfold endpointMentions at this ⊢
      rw [removeConnectorFromIndex_endpoints_other s c cid2 hne]
      exact this

/-- Claim C7: `getConnectors(id)` never throws (it is a total function of
the state), returns exactly the ids in the endpoint index for `id` that
resolve to live connector models, and — whenever the endpoint set is
duplicate-free and index-coherent (every indexed connector id has a
cached endpoint pair naming `id`, the invariant the index maintains) —
every stale id in the set is removed from the endpoint index by that
read. -/
theorem getConnectors_spec (s : ConnState) (id : String) :
    ((getConnectors s id).1 =
      ((s.connectorIdsByEndpoint.get id).getD []).filter
        (fun cid => isConnectorModel s cid)) ∧
    (((s.connectorIdsByEndpoint.get id).getD []).Nodup →
      (∀ cid ∈ (s.connectorIdsByEndpoint.get id).getD [],
        isConnectorModel s cid = false →
        endpointMentions s cid id = true) →
      ∀ cid ∈ (s.connectorIdsByEndpoint.get id).getD [],
        isConnectorModel s cid = false →
        cid ∉
          (((getConnectors s id).2.connectorIdsByEndpoint.get id).getD
            [])) := by
  constructor
  · unfold getConnectors
    cases hget : s.connectorIdsByEndpoint.get id with
    | none => simp
    | some ids =>
      by_cases hlen : ids.length = 0
      · rw [List.length_eq_zero] at hlen
        subst hlen
        simp
      · simp [hlen]
  · intro hnd hcoh cid hmem hstale
    unfold getConnectors
    cases hget : s.connectorIdsByEndpoint.get id with
    | none =>
      rw [hget] at hmem
      cases hmem
    | some ids =>
      rw [hget] at hmem hnd hcoh
      simp only [Option.getD_some] at hmem hnd hcoh
      have hlen : ¬ids.length = 0 := by
        intro h0
        rw [List.length_eq_zero] at h0
        subst h0
        cases hmem
      simp only [hlen, if_false]
      apply foldRemove_removes id
        (ids.filter (fun cid2 => !(isConnectorModel s cid2))) s
        (hnd.filter _)
      · intro cid2 hmem2
        have h2 := List.mem_filter.mp hmem2
        refine hcoh cid2 h2.1 ?_
        simpa using h2.2
      · rw [List.mem_filter]
        exact ⟨hmem, by simp [hstale]⟩

/-- One live connector `c1` and one stale id `dead` under endpoint `x`. -/
def connWitnessState : ConnState where
  elementModels := [("c1", ⟨"connector", false, [], []⟩)]
  connectorIdsByEndpoint := [("x", ["c1", "dead"])]
  connectorEndpoints := [("c1", (some "x", none)), ("dead", (some "x", none))]

/-- Witness for C7: only the live connector is returned and the stale id
is gone from the endpoint set after the read. -/
theorem getConnectors_spec_witness :
    (getConnectors connWitnessState "x").1 = ["c1"] ∧
    "dead" ∉
      (((getConnectors connWitnessState
        "x").2.connectorIdsByEndpoint.get "x").getD []) := by
  have h := getConnectors_spec connWitnessState "x"
  refine ⟨h.1.trans (by decide), ?_⟩
  exact h.2 (by decide) (by decide) "dead" (by decide) (by decide)

/-! ## Element model stash/pop overlay -/

/-- Modelled from the spec: the primitive element model's two-tier field
storage (spec sections 3, 4.1).  The implementing file
(`gfx/model/surface/element-model.ts`, the `stash`/`pop` methods and the
field/local decorators) is not among the sources at hand — only its unit
test is — so the state is taken from the spec's words: `fields` are the
declared persisted (CRDT-backed) properties, `yMap` the backing CRDT
record, `localProps` the local-only properties, and `stashedStore` the
in-memory stash overlay holding the snapshotted persisted value. -/
structure ElementModelState where
  fields : List String
  yMap : StrMap String
  localProps : StrMap String
  stashedStore : StrMap (Option String)
deriving DecidableEq

/-- Modelled from the spec: `stash(field)` snapshots the persisted value
into the overlay; only declared persisted fields may be stashed, and
stashing an undeclared or local-only field is a silent no-op. -/
def stashField (st : ElementModelState) (field : String) :
    ElementModelState :=
  if field ∈ st.fields then
    { st with stashedStore := st.stashedStore.set field (st.yMap.get field) }
  else st

/-- Modelled from the spec: a property assignment goes to the overlay
while the field is stashed, to the CRDT record for a declared persisted
field, and to the local store otherwise. -/
def assignProp (st : ElementModelState) (field value : String) :
    ElementModelState :=
  if (st.stashedStore.get field).isSome then
    { st with stashedStore := st.stashedStore.set field (some value) }
  else if field ∈ st.fields then
    { st with yMap := st.yMap.set field value }
  else
    { st with localProps := st.localProps.set field value }

/-- Modelled from the spec: `pop(field)` re-applies the overlay value
back into storage (one write) and drops the overlay entry; popping a
field that is not stashed is a silent no-op. -/
def popField (st : ElementModelState) (field : String) :
    ElementModelState :=
  match st.stashedStore.get field with
  | none => st
  | some v =>
    let st1 := { st with stashedStore := st.stashedStore.del field }
    match v with
    | some value => { st1 with yMap := st1.yMap.set field value }
    | none => st1

/-- Claim C4 (spec-modelled): for a field that is not a declared
persisted field and is not currently stashed or persisted,
`stash(field); field = value; pop(field)` completes without raising (the
operations are total), the field is never recorded as stashed at any of
the three steps, and the backing store never gains the field
(`yMap.has(field)` stays false throughout). -/
theorem stash_nonfield_silent (st : ElementModelState)
    (field value : String) (hf : field ∉ st.fields)
    (hy : st.yMap.get field = none)
    (hs : st.stashedStore.get field = none) :
    stashField st field = st ∧
    (stashField st field).stashedStore.get field = none ∧
    (assignProp (stashField st field) field value).stashedStore.get field =
      none ∧
    (assignProp (stashField st field) field value).yMap.get field = none ∧
    (popField (assignProp (stashField st field) field value) field =
      assignProp (stashField st field) field value) ∧
    (popField (assignProp (stashField st field) field value)
      field).yMap.get field = none := by
  have h1 : stashField st field = st := by
    simp [stashField, hf]
  have h2 : assignProp st field value =
      { st with localProps := st.localProps.set field value } := by
    simp [assignProp, hs, hf]
  refine ⟨h1, ?_, ?_, ?_, ?_, ?_⟩ <;> simp only [h1, h2] <;>
    simp [popField, hs, hy]

/-- Witness for C4: stash/assign/pop on the local `opacity` property of a
shape whose declared persisted fields are `rotate` and `xywh`. -/
theorem stash_nonfield_silent_witness :
    (assignProp
      (stashField ⟨["rotate", "xywh"], [("rotate", "0")], [], []⟩
        "opacity") "opacity" "0.5").yMap.get "opacity" = none ∧
    (popField
      (assignProp
        (stashField ⟨["rotate", "xywh"], [("rotate", "0")], [], []⟩
          "opacity") "opacity" "0.5")
      "opacity").yMap.get "opacity" = none := by
  have h := stash_nonfield_silent
    ⟨["rotate", "xywh"], [("rotate", "0")], [], []⟩ "opacity" "0.5"
    (by decide) (by decide) (by decide)
  exact ⟨h.2.2.2.1, h.2.2.2.2.2⟩

end BlockSuite
